import Mathlib

/-!
Verification of the jaunt schema-migration runner (src/jaunt/jaunt.py).

The Python source is shallowly embedded below: pure fragments become Lean
functions, the database collaborator becomes an explicit record of effect
functions, and the run loop becomes a function producing an explicit
`RunResult`.  Python integers are modelled as `Int` (they are unbounded),
byte strings as `List Nat` (each entry < 256), and SHA-1 is implemented in
full over such byte lists.  Definitions come first, theorems at the end of
the file.
-/

/- ------------------------------------------------------------------ -/
/- Data model: class Migration (jaunt.py lines 32-59).                 -/

/-- Direction marker of a migration.  The Python source stores the strings
`"up"` / `"down"` (the only two values produced by the `PREFIX_TO_TYPE`
dictionary `{"V": "up", "U": "down"}`); the `raise NotImplementedError`
branches of `Migration.__init__` and `Migration.ver` are unreachable for
these two values, so the type is modelled as a two-valued inductive. -/
inductive Dir where
  | up
  | down
deriving DecidableEq

/-- Migration descriptor, mirroring class `Migration` of jaunt.py
(fields `type`, `ver_from`, `ver_to`, `desc`, `file`). -/
structure Migration where
  type : Dir
  ver_from : Int
  ver_to : Int
  desc : Option String
  file : String
deriving DecidableEq

/-- Embedding of `Migration.__init__` (jaunt.py lines 33-44): for an up
migration parsed from version `ver`, `ver_from = ver - 1` and
`ver_to = ver`; for a down migration, `ver_from = ver` and
`ver_to = ver - 1`. -/
def mkMigration (t : Dir) (ver : Int) (desc : Option String) (file : String) :
    Migration :=
  match t with
  | .up => ⟨.up, ver - 1, ver, desc, file⟩
  | .down => ⟨.down, ver, ver - 1, desc, file⟩

/-- Embedding of the `Migration.ver` property (jaunt.py lines 46-53):
`ver_to` for an up migration, `ver_from` for a down migration. -/
def Migration.ver (m : Migration) : Int :=
  match m.type with
  | .up => m.ver_to
  | .down => m.ver_from

/- ------------------------------------------------------------------ -/
/- Filename parser: embedding of MIGR_MATCH.fullmatch (jaunt.py line 13)
   with Python regex backtracking semantics.  The source pattern is
   `^(?P<type>[UV])(?P<num>\d+)(__(?P<desc>.+))?.sql$` — note that the
   dot before `sql` is UNESCAPED, so it is the wildcard `.` (any
   character except a newline), not a literal dot. -/

/-- Result of a successful regex match: direction, captured number and
optional description. -/
structure ParsedName where
  dir : Dir
  num : Nat
  desc : Option String
deriving DecidableEq

/-- ASCII decimal digit, modelling the `\d` character class (Python's
Unicode digit class restricted to the ASCII digits actually used by
migration filenames). -/
def isDig (c : Char) : Bool := c.isDigit

/-- Wildcard `.` of the regex: any character except a newline. -/
def anyCh (c : Char) : Bool := c != '\n'

/-- The trailing `.sql` of the pattern with the dot as a wildcard:
exactly four characters, the first arbitrary (non-newline), then
`s`, `q`, `l`. -/
def matchDotSql : List Char → Bool
  | [c, 's', 'q', 'l'] => anyCh c
  | _ => false

/-- Greedy match of `(?P<desc>.+)` followed by `.sql` at end of input:
tries the longest wildcard-run prefix first (Python backtracking order)
and returns the length of the first description split whose remainder
matches `.sql`. -/
def descSplit (r : List Char) : Option Nat :=
  let m := (r.takeWhile anyCh).length
  (List.range m).reverse.findSome? fun j0 =>
    let j := j0 + 1
    if matchDotSql (r.drop j) then some j else none

/-- Match of `(__(?P<desc>.+))?.sql$` against the input remaining after
the digits: the optional group is attempted first (with greedy
backtracking inside), and on total failure of the group the engine falls
back to matching `.sql` directly. -/
def matchTail (r : List Char) : Option (Option String) :=
  match r with
  | '_' :: '_' :: r2 =>
    match descSplit r2 with
    | some j => some (some ⟨r2.take j⟩)
    | none => if matchDotSql r then some none else none
  | _ => if matchDotSql r then some none else none

/-- Embedding of Python `int` on a captured digit string. -/
def digitsToNat (cs : List Char) : Nat :=
  cs.foldl (fun acc c => acc * 10 + (c.toNat - 48)) 0

/-- Match of `(?P<num>\d+)(__(?P<desc>.+))?.sql$` after the direction
marker: `\d+` greedily takes the longest digit run and backtracks to
shorter nonempty runs until the tail matches. -/
def parseNum (rest : List Char) : Option (Nat × Option String) :=
  let n := (rest.takeWhile isDig).length
  (List.range n).reverse.findSome? fun k0 =>
    let k := k0 + 1
    (matchTail (rest.drop k)).map fun d => (digitsToNat (rest.take k), d)

/-- Embedding of `MIGR_MATCH.fullmatch` composed with the
`PREFIX_TO_TYPE` lookup (`V` means up, `U` means down): `some` exactly
when the source regex accepts the whole filename. -/
def parseMigrationName (s : String) : Option ParsedName :=
  match s.data with
  | 'V' :: rest => (parseNum rest).map fun p => ⟨Dir.up, p.1, p.2⟩
  | 'U' :: rest => (parseNum rest).map fun p => ⟨Dir.down, p.1, p.2⟩
  | _ => none

/- Modelled from the spec: the claimed filename grammar with a LITERAL
dot before the extension.  The spec (sections 4.1 and 6) writes the
grammar as `^(U|V)(\d+)(__(description))?\.sql$`; the matcher below is
that grammar, differing from the source regex only in requiring the
literal four-character suffix `.sql`. -/

/-- Literal `\.sql` suffix of the grammar claimed by the spec. -/
def litDotSql : List Char → Bool
  | ['.', 's', 'q', 'l'] => true
  | _ => false

/-- Modelled from the spec: greedy description split against the literal
`\.sql` suffix. -/
def litDescSplit (r : List Char) : Option Nat :=
  let m := (r.takeWhile anyCh).length
  (List.range m).reverse.findSome? fun j0 =>
    let j := j0 + 1
    if litDotSql (r.drop j) then some j else none

/-- Modelled from the spec: `(__(description))?\.sql$` with a literal
dot. -/
def litTail (r : List Char) : Bool :=
  match r with
  | '_' :: '_' :: r2 =>
    match litDescSplit r2 with
    | some _ => true
    | none => litDotSql r
  | _ => litDotSql r

/-- Modelled from the spec: whether a filename matches the claimed
grammar `^(U|V)(\d+)(__(description))?\.sql$` with a literal dot. -/
def specLiteralDotMatch (s : String) : Bool :=
  match s.data with
  | 'V' :: rest
  | 'U' :: rest =>
    let n := (rest.takeWhile isDig).length
    ((List.range n).reverse.findSome? fun k0 =>
      let k := k0 + 1
      if litTail (rest.drop k) then some k else none).isSome
  | _ => false

/- ------------------------------------------------------------------ -/
/- Migration set: _get_migrations_from_dir (jaunt.py lines 253-275).   -/

/-- Construction of one `Migration` from a matched filename:
`Migration(migr_type, int(match["num"]), match["desc"], file)`
(jaunt.py line 265).  `none` for filenames the regex rejects, which the
source silently skips. -/
def parseToMigration (f : String) : Option Migration :=
  (parseMigrationName f).map fun p => mkMigration p.dir (p.num : Int) p.desc f

/-- Embedding of `migr_list.sort(key=lambda x: x.ver)` (jaunt.py line
269).  Python's `list.sort` is a stable ascending sort by the key; any
stable sort computes the same list, and insertion sort is stable. -/
def sortByVer (l : List Migration) : List Migration :=
  List.insertionSort (fun a b => a.ver ≤ b.ver) l

/-- Embedding of `_get_migrations_from_dir` (jaunt.py lines 253-275):
parse every candidate filename, silently skipping non-matching ones,
partition the descriptors by direction in iteration order, and sort each
partition ascending by `ver`.  The pair is (up-sequence, down-sequence),
mirroring the returned dict's `"up"` and `"down"` entries. -/
def getMigrationsFromDir (files : List String) :
    List Migration × List Migration :=
  let parsed := files.filterMap parseToMigration
  (sortByVer (parsed.filter fun m => m.type = Dir.up),
   sortByVer (parsed.filter fun m => m.type = Dir.down))

/- ------------------------------------------------------------------ -/
/- Version range selection: bisect-based slicing in `up` (jaunt.py
   lines 149-167) and `down` (jaunt.py lines 95-110).                  -/

/-- Binary-search loop of Python's `bisect.bisect` (an alias of
`bisect_right`): maintain an interval `[lo, hi)`, compare the probe with
the middle element, and return the right insertion point.  The first
argument of the recursion is fuel, an embedding artifact only: the
interval shrinks at every step, so `a.length` units always suffice (the
loop of the library routine terminates for the same reason). -/
def bisectGo (a : List Int) (x : Int) : Nat → Nat → Nat → Nat
  | 0, lo, _ => lo
  | fuel + 1, lo, hi =>
    if lo < hi then
      let mid := (lo + hi) / 2
      if x < a.getD mid 0 then bisectGo a x fuel lo mid
      else bisectGo a x fuel (mid + 1) hi
    else lo

/-- Python `bisect.bisect(a, x)` over a list of keys: the source always
calls it as `bisect(migrations, v, key=lambda x: x.ver)`, which below is
`pyBisect (migrations.map Migration.ver) v`. -/
def pyBisect (a : List Int) (x : Int) : Nat := bisectGo a x a.length 0 a.length

/-- Selection slice of `up` (jaunt.py lines 149-151 and 165-167): when a
target version was supplied, truncate to `migrations[:end]` with
`end = bisect(migrations, target, key=ver)`; then, after reading the
current version from the ledger, keep `migrations[start:]` with
`start = bisect(migrations, curr_version, key=ver)` computed on the
(possibly truncated) list. -/
def upSelect (migrations : List Migration) (target : Option Int)
    (curr : Int) : List Migration :=
  let m1 := match target with
    | some t => migrations.take (pyBisect (migrations.map Migration.ver) t)
    | none => migrations
  m1.drop (pyBisect (m1.map Migration.ver) curr)

/-- Embedding of `sorted(..., key=lambda x: x.ver, reverse=True)`
(jaunt.py line 110): Python's `sorted` with `reverse=True` is a stable
descending sort by the key; insertion sort under the reversed comparison
is such a sort. -/
def sortByVerDesc (l : List Migration) : List Migration :=
  List.insertionSort (fun a b => b.ver ≤ a.ver) l

/-- Selection slice of `down` (jaunt.py lines 95, 108-110): both bisect
calls run on the full sorted down-sequence — `end = bisect(migrations,
target, key=ver)` before the ledger query and `start =
bisect(migrations, curr_version, key=ver)` after it — and the slice
`migrations[end:start]` is then sorted descending by `ver`. -/
def downSelect (migrations : List Migration) (target curr : Int) :
    List Migration :=
  sortByVerDesc
    ((migrations.drop (pyBisect (migrations.map Migration.ver) target)).take
      (pyBisect (migrations.map Migration.ver) curr -
        pyBisect (migrations.map Migration.ver) target))

/-- Default upper bound of the up range when no target is supplied: the
highest available `ver_to` (0 for an empty sequence, where the selection
is empty anyway). -/
def maxVerTo (l : List Migration) : Int :=
  l.foldr (fun m acc => max m.ver_to acc) 0

/-- Concrete up-sequence with versions 1, 2, 3, 4 (the spec's selector
example), used as evaluation input by witnesses. -/
def exUps : List Migration :=
  [mkMigration Dir.up 1 none "V1__a.sql",
   mkMigration Dir.up 2 none "V2__b.sql",
   mkMigration Dir.up 3 none "V3__c.sql",
   mkMigration Dir.up 4 none "V4__d.sql"]

/-- Concrete down-sequence with versions 1, 2, 3 (the spec's selector
example), used as evaluation input by witnesses. -/
def exDowns : List Migration :=
  [mkMigration Dir.down 1 none "U1__a.sql",
   mkMigration Dir.down 2 none "U2__b.sql",
   mkMigration Dir.down 3 none "U3__c.sql"]

/- ------------------------------------------------------------------ -/
/- Hash chain: `hashlib.sha1` as used by `_apply_migration` (jaunt.py
   lines 292-293): `hash = sha1((last_hash + query).encode()).hexdigest()`.
   SHA-1 is implemented in full (FIPS 180) over byte lists; Python `str`
   values are mapped to their UTF-8 byte sequences. -/

/-- Reduction to a 32-bit word. -/
def w32 (x : Nat) : Nat := x % 4294967296

/-- 32-bit left rotation. -/
def rotl (n x : Nat) : Nat := ((x <<< n) ||| (x >>> (32 - n))) % 4294967296

/-- Big-endian bytes of a 32-bit word. -/
def be32 (n : Nat) : List Nat :=
  [(n >>> 24) % 256, (n >>> 16) % 256, (n >>> 8) % 256, n % 256]

/-- Big-endian bytes of a 64-bit word. -/
def be64 (n : Nat) : List Nat :=
  [(n >>> 56) % 256, (n >>> 48) % 256, (n >>> 40) % 256, (n >>> 32) % 256,
   (n >>> 24) % 256, (n >>> 16) % 256, (n >>> 8) % 256, n % 256]

/-- SHA-1 message padding: a `0x80` byte, zeros up to 56 mod 64, then the
message bit length as a big-endian 64-bit integer. -/
def sha1Pad (msg : List Nat) : List Nat :=
  msg ++ [128] ++ List.replicate ((119 - msg.length % 64) % 64) 0 ++
    be64 (8 * msg.length)

/-- Word `i` of a 64-byte block, big-endian. -/
def blockWord (block : List Nat) (i : Nat) : Nat :=
  block.getD (4 * i) 0 * 16777216 + block.getD (4 * i + 1) 0 * 65536 +
    block.getD (4 * i + 2) 0 * 256 + block.getD (4 * i + 3) 0

/-- One step of the SHA-1 message-schedule extension: append
`rotl 1 (w[n-3] xor w[n-8] xor w[n-14] xor w[n-16])`. -/
def extendStep (w : List Nat) : List Nat :=
  w ++ [rotl 1 (w.getD (w.length - 3) 0 ^^^ w.getD (w.length - 8) 0 ^^^
    w.getD (w.length - 14) 0 ^^^ w.getD (w.length - 16) 0)]

/-- Round function of SHA-1. -/
def sha1F (i b c d : Nat) : Nat :=
  if i < 20 then (b &&& c) ||| ((b ^^^ 4294967295) &&& d)
  else if i < 40 then b ^^^ c ^^^ d
  else if i < 60 then (b &&& c) ||| (b &&& d) ||| (c &&& d)
  else b ^^^ c ^^^ d

/-- Round constants of SHA-1. -/
def sha1K (i : Nat) : Nat :=
  if i < 20 then 1518500249
  else if i < 40 then 1859775393
  else if i < 60 then 2400959708
  else 3395469782

/-- One SHA-1 round on the five-word state. -/
def roundStep (w : List Nat) (st : Nat × Nat × Nat × Nat × Nat) (i : Nat) :
    Nat × Nat × Nat × Nat × Nat :=
  match st with
  | (a, b, c, d, e) =>
    (w32 (rotl 5 a + sha1F i b c d + e + sha1K i + w.getD i 0), a,
      rotl 30 b, c, d)

/-- Compression of one 64-byte block into the running state. -/
def processBlock (h : Nat × Nat × Nat × Nat × Nat) (block : List Nat) :
    Nat × Nat × Nat × Nat × Nat :=
  let w := extendStep^[64] ((List.range 16).map (blockWord block))
  match h, (List.range 80).foldl (roundStep w) h with
  | (h0, h1, h2, h3, h4), (a, b, c, d, e) =>
    (w32 (h0 + a), w32 (h1 + b), w32 (h2 + c), w32 (h3 + d), w32 (h4 + e))

/-- The 64-byte blocks of a padded message (its length is a multiple of
64 by construction). -/
def toBlocks (l : List Nat) : List (List Nat) :=
  (List.range (l.length / 64)).map fun i => (l.drop (64 * i)).take 64

/-- SHA-1 digest (20 bytes) of a byte sequence. -/
def sha1 (msg : List Nat) : List Nat :=
  match (toBlocks (sha1Pad msg)).foldl processBlock
      (1732584193, 4023233417, 2562383102, 271733878, 3285377520) with
  | (h0, h1, h2, h3, h4) =>
    be32 h0 ++ be32 h1 ++ be32 h2 ++ be32 h3 ++ be32 h4

/-- Lower-case hexadecimal digit. -/
def hexChar (n : Nat) : Char := Char.ofNat (if n < 10 then 48 + n else 87 + n)

/-- Lower-case hexadecimal rendering of a byte sequence, modelling
`hexdigest()`. -/
def hexStr (bs : List Nat) : String :=
  ⟨bs.flatMap fun b => [hexChar (b / 16), hexChar (b % 16)]⟩

/-- UTF-8 bytes of one character, modelling Python `str.encode()`. -/
def utf8Char (c : Char) : List Nat :=
  let n := c.toNat
  if n < 128 then [n]
  else if n < 2048 then [192 + n / 64, 128 + n % 64]
  else if n < 65536 then [224 + n / 4096, 128 + (n / 64) % 64, 128 + n % 64]
  else [240 + n / 262144, 128 + (n / 4096) % 64, 128 + (n / 64) % 64,
    128 + n % 64]

/-- UTF-8 bytes of a string, modelling Python `str.encode()`. -/
def utf8Bytes (s : String) : List Nat := s.data.flatMap utf8Char

/-- One hash-chain extension (jaunt.py lines 292-293):
`to_hash = last_hash + query; sha1(to_hash.encode()).hexdigest()`. -/
def chainExt (h q : String) : String := hexStr (sha1 (utf8Bytes (h ++ q)))

/-- The hash chain over a sequence of migration contents, mirroring the
run loop `migration_hash = _apply_migration(cursor, migr, migration_hash)`
(jaunt.py line 179): a left fold of `chainExt` from the seed.  Being a
pure function of the seed and the content sequence, it is deterministic
by construction. -/
def chainSeq (h0 : String) (ms : List String) : String := ms.foldl chainExt h0

/- ------------------------------------------------------------------ -/
/- Migration applier: _apply_migration / _record_migration and the run
   loops of `up` and `down` (jaunt.py lines 84-127, 138-183, 278-310). -/

/-- One row of the `_migration` ledger table as written by
`_record_migration` (jaunt.py lines 300-310): the recorded version, the
migration file identifier, and the chained content hash.  The row's
`date` column is the wall-clock insertion time, assumed strictly
increasing across appends, so the list order below is `date` order and
the ledger's latest row is the list's last element; the `schema_hash`
column is always NULL.  Neither omitted column carries information for
the claims below. -/
structure LedgerEntry where
  version : Int
  migration : String
  hash : String
deriving DecidableEq

/-- The database collaborator visible to `_apply_migration`: reading a
migration file's content (`open(migration.file).read()`), and the
outcome of `cursor.execute(query, multi=True)` — `none` models a `None`
result (the "migration is empty" warning path), `some rs` the
per-statement result iterator, each entry either a success or the
statement error raised when the iterator reaches it. -/
structure Db where
  content : String → String
  execResults : String → Option (List (Except String Unit))

/-- First statement error raised while draining the result iterator
(`for result in results: pass` — jaunt.py lines 289-290), where
"accessing the iterator entry raises cmd errors". -/
def firstError (rs : List (Except String Unit)) : Option String :=
  rs.findSome? fun r => match r with
    | .error e => some e
    | .ok _ => none

/-- Error, if any, raised while executing one migration's batch. -/
def errOf (db : Db) (m : Migration) : Option String :=
  match db.execResults (db.content m.file) with
  | none => none
  | some rs => firstError rs

/-- Embedding of `_apply_migration` (jaunt.py lines 278-297): read the
file, execute the batch (a `None` result is only an emptiness warning),
and on success extend the hash chain over the raw content and produce
the ledger row that `_record_migration` inserts (version `ver_to`, the
file identifier, the new hash).  A statement error propagates as an
exception before any hash is computed or any row recorded, and the
migration's uncommitted transaction is rolled back, so no partial effect
persists. -/
def applyMigration (db : Db) (m : Migration) (lastHash : String) :
    Except String (String × LedgerEntry) :=
  match errOf db m with
  | some e => .error e
  | none =>
    .ok (chainExt lastHash (db.content m.file),
      ⟨m.ver_to, m.file, chainExt lastHash (db.content m.file)⟩)

/-- Outcome of a run of `up` or `down`: the empty-selection warning, a
completed run, or a halt at a failing migration.  In each case the
ledger rows as committed when the run ends are carried along.  The
source has no other outcome — in particular no range error exists
anywhere in it. -/
inductive RunResult where
  | noMigrations (ledger : List LedgerEntry)
  | completed (ledger : List LedgerEntry) (hash : String)
  | failedAt (m : Migration) (err : String) (ledger : List LedgerEntry)
deriving DecidableEq

/-- The application loop shared by `up` and `down` (jaunt.py lines
176-183 and 119-126): apply each selected migration in order, with
`conn.commit()` after each success committing its statements together
with its ledger row; a raised statement error halts the run with the
ledger as committed so far (the failing migration's transaction is never
committed, all earlier commits are preserved). -/
def applyLoop (db : Db) : List Migration → String → List LedgerEntry →
    RunResult
  | [], h, led => .completed led h
  | m :: rest, h, led =>
    match applyMigration db m h with
    | .ok (h2, entry) => applyLoop db rest h2 (led ++ [entry])
    | .error e => .failedAt m e led

/-- Embedding of the `up` command (jaunt.py lines 138-183), parametrised
by the current version and hash read from the latest ledger row: select
the range, report the "No migrations to apply" warning when the
selection is empty, otherwise run the application loop. -/
def runUp (db : Db) (migs : List Migration) (target : Option Int)
    (curr : Int) (h0 : String) (led : List LedgerEntry) : RunResult :=
  match upSelect migs target curr with
  | [] => .noMigrations led
  | sel => applyLoop db sel h0 led

/-- Embedding of the `down` command (jaunt.py lines 84-127),
parametrised like `runUp`. -/
def runDown (db : Db) (migs : List Migration) (target curr : Int)
    (h0 : String) (led : List LedgerEntry) : RunResult :=
  match downSelect migs target curr with
  | [] => .noMigrations led
  | sel => applyLoop db sel h0 led

/-- Concrete database collaborator for witnesses: every file's content
is its name, and executing the content of `V2__b.sql` raises the
statement error `boom` while every other batch succeeds. -/
def exDb : Db :=
  ⟨fun f => f,
   fun q => if q = "V2__b.sql" then some [.error "boom"] else some [.ok ()]⟩

/-- Embedding of `list_migrations` (jaunt.py lines 129-135): the command
opens no database connection and performs no SQL at all; it only reads
the migration directory and prints the partitioned migration set
(`"Up:"` then `"Down:"`, the dict iteration order). -/
def listMigrations (files : List String) :
    List (String × List Migration) :=
  [("Up", (getMigrationsFromDir files).1),
   ("Down", (getMigrationsFromDir files).2)]

/-- One invocation of the `list` command against a ledger state: since
the source contains no ledger read or write in `list_migrations`, the
invocation returns the ledger unchanged alongside the printed listing. -/
def runList (led : List LedgerEntry) (files : List String) :
    List LedgerEntry × List (String × List Migration) :=
  (led, listMigrations files)

/- ------------------------------------------------------------------ -/
/- Helper lemmas (shared).                                             -/

theorem Migration.ver_of_up {m : Migration} (h : m.type = Dir.up) :
    m.ver = m.ver_to := by
  unfold Migration.ver
  rw [h]

theorem Migration.ver_of_down {m : Migration} (h : m.type = Dir.down) :
    m.ver = m.ver_from := by
  unfold Migration.ver
  rw [h]

theorem sortByVer_perm (l : List Migration) : (sortByVer l).Perm l :=
  List.perm_insertionSort _ l

theorem sortByVer_sorted (l : List Migration) :
    (sortByVer l).Pairwise fun a b => a.ver ≤ b.ver := by
  haveI : IsTotal Migration fun a b => a.ver ≤ b.ver :=
    ⟨fun a b => le_total a.ver b.ver⟩
  haveI : IsTrans Migration fun a b => a.ver ≤ b.ver :=
    ⟨fun _ _ _ hab hbc => le_trans hab hbc⟩
  exact List.sorted_insertionSort _ l

theorem sortByVerDesc_perm (l : List Migration) : (sortByVerDesc l).Perm l :=
  List.perm_insertionSort _ l

theorem sortByVerDesc_sorted (l : List Migration) :
    (sortByVerDesc l).Pairwise fun a b => b.ver ≤ a.ver := by
  haveI : IsTotal Migration fun a b => b.ver ≤ a.ver :=
    ⟨fun a b => le_total b.ver a.ver⟩
  haveI : IsTrans Migration fun a b => b.ver ≤ a.ver :=
    ⟨fun _ _ _ hab hbc => le_trans hbc hab⟩
  exact List.sorted_insertionSort _ l

theorem getD_mono (a : List Int) (hs : a.Pairwise (· ≤ ·)) {i j : Nat}
    (hij : i ≤ j) (hj : j < a.length) : a.getD i 0 ≤ a.getD j 0 := by
  rcases Nat.eq_or_lt_of_le hij with rfl | h
  · exact le_refl _
  · rw [List.getD_eq_getElem _ _ (lt_trans h hj), List.getD_eq_getElem _ _ hj]
    exact List.pairwise_iff_getElem.mp hs i j (lt_trans h hj) hj h

theorem takeWhile_len_eq (p : Int → Bool) :
    ∀ (a : List Int) (r : Nat), r ≤ a.length →
      (∀ i, i < r → p (a.getD i 0) = true) →
      (∀ i, r ≤ i → i < a.length → p (a.getD i 0) = false) →
      (a.takeWhile p).length = r := by
  intro a
  induction a with
  | nil => intro r hr _ _; simpa using (Nat.le_zero.mp (by simpa using hr)).symm
  | cons b tl ih =>
    intro r hr h1 h2
    cases r with
    | zero =>
      have hb : p b = false := by simpa using h2 0 (Nat.zero_le _) (by simp)
      simp [List.takeWhile_cons, hb]
    | succ r2 =>
      have hb : p b = true := by simpa using h1 0 (Nat.succ_pos _)
      have htl := ih r2 (by simpa using hr)
        (fun i hi => by simpa using h1 (i + 1) (by omega))
        (fun i hi hlen =>
          by simpa using h2 (i + 1) (by omega) (by simpa using hlen))
      simp [List.takeWhile_cons, hb, htl]

theorem bisectGo_spec (a : List Int) (x : Int) (hs : a.Pairwise (· ≤ ·)) :
    ∀ (fuel lo hi : Nat), hi - lo ≤ fuel → lo ≤ hi → hi ≤ a.length →
      (∀ i, i < lo → a.getD i 0 ≤ x) →
      (∀ i, hi ≤ i → i < a.length → x < a.getD i 0) →
      bisectGo a x fuel lo hi = (a.takeWhile fun y => y ≤ x).length := by
  intro fuel
  induction fuel with
  | zero =>
    intro lo hi hfuel hlh hhl h1 h2
    have : lo = hi := by omega
    subst this
    refine (takeWhile_len_eq _ a lo hhl (fun i hi2 => ?_)
      (fun i hi2 hlen => ?_)).symm
    · simpa using h1 i hi2
    · simpa using not_le.mpr (h2 i hi2 hlen)
  | succ fuel ih =>
    intro lo hi hfuel hlh hhl h1 h2
    show (if lo < hi then
      let mid := (lo + hi) / 2
      if x < a.getD mid 0 then bisectGo a x fuel lo mid
      else bisectGo a x fuel (mid + 1) hi
      else lo) = _
    by_cases hlt : lo < hi
    · simp only [if_pos hlt]
      have hmidlo : lo ≤ (lo + hi) / 2 := by omega
      have hmidhi : (lo + hi) / 2 < hi := by omega
      by_cases hx : x < a.getD ((lo + hi) / 2) 0
      · simp only [if_pos hx]
        refine ih lo ((lo + hi) / 2) (by omega) hmidlo (by omega) h1 ?_
        intro i hmi hilen
        calc x < a.getD ((lo + hi) / 2) 0 := hx
          _ ≤ a.getD i 0 := getD_mono a hs hmi hilen
      · simp only [if_neg hx]
        push_neg at hx
        refine ih ((lo + hi) / 2 + 1) hi (by omega) (by omega) hhl ?_ h2
        intro i hi2
        calc a.getD i 0 ≤ a.getD ((lo + hi) / 2) 0 :=
              getD_mono a hs (by omega) (by omega)
          _ ≤ x := hx
    · simp only [if_neg hlt]
      have : lo = hi := by omega
      subst this
      refine (takeWhile_len_eq _ a lo hhl (fun i hi2 => ?_)
        (fun i hi2 hlen => ?_)).symm
      · simpa using h1 i hi2
      · simpa using not_le.mpr (h2 i hi2 hlen)

theorem pyBisect_eq_takeWhile (a : List Int) (x : Int)
    (hs : a.Pairwise (· ≤ ·)) :
    pyBisect a x = (a.takeWhile fun y => y ≤ x).length :=
  bisectGo_spec a x hs a.length 0 a.length (by omega) (Nat.zero_le _)
    (le_refl _) (fun i hi => by omega) (fun i hi hlen => by omega)

theorem pyBisect_ver (l : List Migration) (x : Int)
    (hs : l.Pairwise fun a b => a.ver ≤ b.ver) :
    pyBisect (l.map Migration.ver) x =
      (l.takeWhile fun m => m.ver ≤ x).length := by
  rw [pyBisect_eq_takeWhile _ _ (List.pairwise_map.mpr hs)]
  simp [List.takeWhile_map, Function.comp_def]

theorem takeWhile_eq_filter_ver (x : Int) :
    ∀ (l : List Migration), (l.Pairwise fun a b => a.ver ≤ b.ver) →
      (l.takeWhile fun m => m.ver ≤ x) = l.filter fun m => m.ver ≤ x := by
  intro l
  induction l with
  | nil => simp
  | cons a tl ih =>
    intro hs
    rcases List.pairwise_cons.mp hs with ⟨ha, htl⟩
    by_cases h : a.ver ≤ x
    · simp [List.takeWhile_cons, List.filter_cons, h, ih htl]
    · have hnil : tl.filter (fun m => decide (m.ver ≤ x)) = [] := by
        rw [List.filter_eq_nil_iff]
        intro b hb
        simp only [decide_eq_true_eq]
        intro hbx
        exact h (le_trans (ha b hb) hbx)
      simp [List.takeWhile_cons, List.filter_cons, h, hnil]

theorem dropWhile_eq_filter_ver (x : Int) :
    ∀ (l : List Migration), (l.Pairwise fun a b => a.ver ≤ b.ver) →
      (l.dropWhile fun m => m.ver ≤ x) = l.filter fun m => x < m.ver := by
  intro l
  induction l with
  | nil => simp
  | cons a tl ih =>
    intro hs
    rcases List.pairwise_cons.mp hs with ⟨ha, htl⟩
    by_cases h : a.ver ≤ x
    · simp [List.dropWhile_cons, List.filter_cons, h, not_lt.mpr h, ih htl]
    · have hall : tl.filter (fun m => decide (x < m.ver)) = tl := by
        rw [List.filter_eq_self]
        intro b hb
        simp only [decide_eq_true_eq]
        exact lt_of_lt_of_le (not_le.mp h) (ha b hb)
      simp [List.dropWhile_cons, h, List.filter_cons, not_le.mp h, hall]

theorem take_takeWhile_len (l : List Migration) (p : Migration → Bool) :
    l.take (l.takeWhile p).length = l.takeWhile p :=
  (List.prefix_iff_eq_take.mp (List.takeWhile_prefix p)).symm

theorem drop_takeWhile_len (l : List Migration) (p : Migration → Bool) :
    l.drop (l.takeWhile p).length = l.dropWhile p := by
  have h := List.takeWhile_append_dropWhile p l
  calc l.drop (l.takeWhile p).length
      = (l.takeWhile p ++ l.dropWhile p).drop (l.takeWhile p).length := by
        rw [h]
    _ = l.dropWhile p := List.drop_left _ _

theorem upSelect_some_eq (l : List Migration) (t c : Int)
    (hs : l.Pairwise fun a b => a.ver ≤ b.ver) :
    upSelect l (some t) c = l.filter fun m => c < m.ver ∧ m.ver ≤ t := by
  unfold upSelect
  simp only
  rw [pyBisect_ver l t hs, take_takeWhile_len]
  have hs1 : (l.takeWhile fun m => m.ver ≤ t).Pairwise
      fun a b => a.ver ≤ b.ver :=
    hs.sublist (List.takeWhile_sublist _)
  rw [pyBisect_ver _ c hs1, drop_takeWhile_len,
    dropWhile_eq_filter_ver c _ hs1, takeWhile_eq_filter_ver t l hs,
    List.filter_filter]
  refine List.filter_congr fun m _ => ?_
  simp [Bool.decide_and]

theorem upSelect_none_eq (l : List Migration) (c : Int)
    (hs : l.Pairwise fun a b => a.ver ≤ b.ver) :
    upSelect l none c = l.filter fun m => c < m.ver := by
  unfold upSelect
  simp only
  rw [pyBisect_ver l c hs, drop_takeWhile_len, dropWhile_eq_filter_ver c l hs]

theorem downSlice_eq (l : List Migration) (t c : Int)
    (hs : l.Pairwise fun a b => a.ver ≤ b.ver) :
    (l.drop (pyBisect (l.map Migration.ver) t)).take
        (pyBisect (l.map Migration.ver) c -
          pyBisect (l.map Migration.ver) t) =
      l.filter fun m => t < m.ver ∧ m.ver ≤ c := by
  rw [pyBisect_ver l t hs, pyBisect_ver l c hs]
  by_cases htc : t ≤ c
  · have hes : (l.takeWhile fun m => m.ver ≤ t).length ≤
        (l.takeWhile fun m => m.ver ≤ c).length := by
      rw [takeWhile_eq_filter_ver t l hs, takeWhile_eq_filter_ver c l hs,
        ← List.countP_eq_length_filter, ← List.countP_eq_length_filter]
      exact List.countP_mono_left fun m _ h => by
        simp only [decide_eq_true_eq] at h ⊢
        omega
    rw [List.take_drop]
    have harith : (l.takeWhile fun m => m.ver ≤ t).length +
        ((l.takeWhile fun m => m.ver ≤ c).length -
          (l.takeWhile fun m => m.ver ≤ t).length) =
        (l.takeWhile fun m => m.ver ≤ c).length := by omega
    rw [harith, take_takeWhile_len]
    have hs1 : (l.takeWhile fun m => m.ver ≤ c).Pairwise
        fun a b => a.ver ≤ b.ver :=
      hs.sublist (List.takeWhile_sublist _)
    have hfun : (fun a : Migration =>
        decide (decide (a.ver ≤ t) = true ∧ decide (a.ver ≤ c) = true)) =
        fun a : Migration => decide (a.ver ≤ t) := by
      funext a
      rw [decide_eq_decide]
      simp only [decide_eq_true_eq]
      exact ⟨fun h => h.1, fun h => ⟨h, by omega⟩⟩
    have he : (l.takeWhile fun m => m.ver ≤ t).length =
        ((l.takeWhile fun m => m.ver ≤ c).takeWhile
          fun m => m.ver ≤ t).length := by
      rw [List.takeWhile_takeWhile, hfun]
    rw [he, drop_takeWhile_len, dropWhile_eq_filter_ver t _ hs1,
      takeWhile_eq_filter_ver c l hs, List.filter_filter]
    refine List.filter_congr fun m _ => ?_
    simp [Bool.decide_and]
  · have hse : (l.takeWhile fun m => m.ver ≤ c).length ≤
        (l.takeWhile fun m => m.ver ≤ t).length := by
      rw [takeWhile_eq_filter_ver t l hs, takeWhile_eq_filter_ver c l hs,
        ← List.countP_eq_length_filter, ← List.countP_eq_length_filter]
      exact List.countP_mono_left fun m _ h => by
        simp only [decide_eq_true_eq] at h ⊢
        omega
    have hzero : (l.takeWhile fun m => m.ver ≤ c).length -
        (l.takeWhile fun m => m.ver ≤ t).length = 0 := by omega
    rw [hzero, List.take_zero]
    symm
    rw [List.filter_eq_nil_iff]
    intro m _
    simp only [decide_eq_true_eq, not_and]
    intro h1 h2
    omega

theorem mem_le_maxVerTo : ∀ (l : List Migration), ∀ m ∈ l,
    m.ver_to ≤ maxVerTo l := by
  intro l
  induction l with
  | nil => simp
  | cons a tl ih =>
    intro m hm
    rcases List.mem_cons.mp hm with rfl | hm2
    · exact le_max_left _ _
    · exact le_trans (ih m hm2) (le_max_right _ _)

theorem utf8Bytes_append (a b : String) :
    utf8Bytes (a ++ b) = utf8Bytes a ++ utf8Bytes b := by
  unfold utf8Bytes
  rw [String.data_append, List.flatMap_append]

theorem sha1_length (msg : List Nat) : (sha1 msg).length = 20 := by
  unfold sha1
  rcases (toBlocks (sha1Pad msg)).foldl processBlock
      (1732584193, 4023233417, 2562383102, 271733878, 3285377520) with
    ⟨h0, h1, h2, h3, h4⟩
  simp [be32]

theorem hexStr_length : ∀ bs : List Nat, (hexStr bs).length = 2 * bs.length := by
  intro bs
  induction bs with
  | nil => rfl
  | cons b tl ih =>
    have h2 : (hexStr (b :: tl)).length = (hexStr tl).length + 2 := rfl
    rw [h2, ih]
    simp only [List.length_cons]
    omega

/- ------------------------------------------------------------------ -/
/- Theorems.                                                           -/

/-- C6: for every parsed migration descriptor with captured version number
N, an up descriptor has `version_from = N - 1` and `version_to = N`, and a
down descriptor has `version_from = N` and `version_to = N - 1`
(jaunt.py lines 32-44). -/
theorem version_arithmetic_from_captured (n : Int) (d : Option String)
    (f : String) :
    (mkMigration Dir.up n d f).ver_from = n - 1 ∧
      (mkMigration Dir.up n d f).ver_to = n ∧
      (mkMigration Dir.down n d f).ver_from = n ∧
      (mkMigration Dir.down n d f).ver_to = n - 1 :=
  ⟨rfl, rfl, rfl, rfl⟩

/-- C10: the derived key `ver` of a descriptor constructed from captured
number N equals N in both directions, and coincides with `version_to` for
an up descriptor and with `version_from` for a down descriptor
(jaunt.py lines 46-53).  This `ver` is the key passed to every `sort` and
`bisect` call below (`key=lambda x: x.ver` in the source). -/
theorem ver_key_eq_captured (n : Int) (d : Option String) (f : String) :
    (mkMigration Dir.up n d f).ver = n ∧
      (mkMigration Dir.up n d f).ver = (mkMigration Dir.up n d f).ver_to ∧
      (mkMigration Dir.down n d f).ver = n ∧
      (mkMigration Dir.down n d f).ver =
        (mkMigration Dir.down n d f).ver_from :=
  ⟨rfl, rfl, rfl, rfl⟩

/-- C7: the source regex leaves the dot of `.sql` unescaped, so it is a
wildcard: the filename `V12sql` (no dot at all) is accepted by the code
and parsed as an up-migration with captured number 1 (the `\d+` group
backtracks and the wildcard consumes the `2`), while the grammar claimed
by the spec, with a literal `\.sql`, rejects it. -/
theorem migr_match_accepts_nonliteral_dot :
    parseMigrationName "V12sql" = some ⟨Dir.up, 1, none⟩ ∧
      specLiteralDotMatch "V12sql" = false := by
  constructor
  · rfl
  · rfl

/-- C8: for every directory listing, `_get_migrations_from_dir`
partitions the parsed descriptors into an up sequence and a down
sequence — together they are a permutation of all parsed descriptors and
each contains only its own direction — and returns each sequence sorted
ascending by version (`version_to` for up descriptors, `version_from`
for down descriptors). -/
theorem migrations_partitioned_and_sorted (files : List String) :
    ((getMigrationsFromDir files).1.Pairwise fun a b =>
        a.ver_to ≤ b.ver_to) ∧
      ((getMigrationsFromDir files).2.Pairwise fun a b =>
        a.ver_from ≤ b.ver_from) ∧
      (∀ m ∈ (getMigrationsFromDir files).1, m.type = Dir.up) ∧
      (∀ m ∈ (getMigrationsFromDir files).2, m.type = Dir.down) ∧
      ((getMigrationsFromDir files).1 ++
          (getMigrationsFromDir files).2).Perm
        (files.filterMap parseToMigration) := by
  set parsed := files.filterMap parseToMigration with hp
  have hup : ∀ m ∈ (getMigrationsFromDir files).1, m.type = Dir.up := by
    intro m hm
    have hm2 : m ∈ parsed.filter fun m => m.type = Dir.up :=
      (sortByVer_perm _).mem_iff.mp hm
    simpa using (List.mem_filter.mp hm2).2
  have hdown : ∀ m ∈ (getMigrationsFromDir files).2, m.type = Dir.down := by
    intro m hm
    have hm2 : m ∈ parsed.filter fun m => m.type = Dir.down :=
      (sortByVer_perm _).mem_iff.mp hm
    simpa using (List.mem_filter.mp hm2).2
  refine ⟨?_, ?_, hup, hdown, ?_⟩
  · exact (sortByVer_sorted _).imp_of_mem fun ha hb h => by
      rwa [Migration.ver_of_up (hup _ ha), Migration.ver_of_up (hup _ hb)]
        at h
  · exact (sortByVer_sorted _).imp_of_mem fun ha hb h => by
      rwa [Migration.ver_of_down (hdown _ ha),
        Migration.ver_of_down (hdown _ hb)] at h
  · refine ((sortByVer_perm _).append (sortByVer_perm _)).trans ?_
    have hneg : parsed.filter (fun m => m.type = Dir.down) =
        parsed.filter fun m => !(decide (m.type = Dir.up)) := by
      refine List.filter_congr fun m _ => ?_
      cases h : m.type <;> simp [h]
    rw [hneg]
    exact List.filter_append_perm _ parsed

/-- C2: for every sorted-ascending up-sequence, current version `c` and
optional target `t` (defaulting to the highest available version when
not supplied), `up` selects exactly the descriptors with
`c < version_to <= t`, keeping them in ascending order of `version_to`
(jaunt.py lines 149-167). -/
theorem up_selects_exact_range (migs : List Migration) (c : Int)
    (tgt : Option Int)
    (hs : migs.Pairwise fun a b => a.ver_to ≤ b.ver_to)
    (hup : ∀ m ∈ migs, m.type = Dir.up) :
    upSelect migs tgt c =
      migs.filter (fun m => c < m.ver_to ∧
        m.ver_to ≤ tgt.getD (maxVerTo migs)) ∧
      (upSelect migs tgt c).Pairwise fun a b => a.ver_to ≤ b.ver_to := by
  have hsv : migs.Pairwise fun a b => a.ver ≤ b.ver :=
    hs.imp_of_mem fun ha hb h => by
      rwa [Migration.ver_of_up (hup _ ha), Migration.ver_of_up (hup _ hb)]
  have hmain : upSelect migs tgt c =
      migs.filter fun m => c < m.ver_to ∧
        m.ver_to ≤ tgt.getD (maxVerTo migs) := by
    cases tgt with
    | some t =>
      rw [upSelect_some_eq migs t c hsv]
      refine List.filter_congr fun m hm => ?_
      rw [decide_eq_decide, Migration.ver_of_up (hup _ hm)]
      simp [Option.getD_some]
    | none =>
      rw [upSelect_none_eq migs c hsv]
      refine List.filter_congr fun m hm => ?_
      rw [decide_eq_decide, Migration.ver_of_up (hup _ hm)]
      simp only [Option.getD_none]
      exact ⟨fun h => ⟨h, mem_le_maxVerTo migs m hm⟩, fun h => h.1⟩
  refine ⟨hmain, ?_⟩
  rw [hmain]
  exact hs.sublist (List.filter_sublist _)

/-- Witness for C2, the spec's example: current version 1, up versions
[1, 2, 3, 4], target 3: exactly versions 2 and 3 are selected, in
ascending order. -/
theorem up_selects_exact_range_w :
    ((exUps.Pairwise fun a b => a.ver_to ≤ b.ver_to) ∧
        (∀ m ∈ exUps, m.type = Dir.up)) ∧
      (upSelect exUps (some 3) 1 =
          exUps.filter (fun m => 1 < m.ver_to ∧
            m.ver_to ≤ (Option.some (3 : Int)).getD (maxVerTo exUps)) ∧
        (upSelect exUps (some 3) 1).Pairwise
          fun a b => a.ver_to ≤ b.ver_to) :=
  ⟨⟨by decide, by decide⟩,
    up_selects_exact_range exUps 1 (some 3) (by decide) (by decide)⟩

/-- C3: for every sorted-ascending down-sequence, current version `c` and
required target `t`, `down` selects exactly the descriptors with
`t < version_from <= c` and applies them in descending order of
`version_from` (jaunt.py lines 95-110). -/
theorem down_selects_exact_range (migs : List Migration) (t c : Int)
    (hs : migs.Pairwise fun a b => a.ver_from ≤ b.ver_from)
    (hdown : ∀ m ∈ migs, m.type = Dir.down) :
    (downSelect migs t c).Perm
        (migs.filter fun m => t < m.ver_from ∧ m.ver_from ≤ c) ∧
      (downSelect migs t c).Pairwise
        fun a b => b.ver_from ≤ a.ver_from := by
  have hsv : migs.Pairwise fun a b => a.ver ≤ b.ver :=
    hs.imp_of_mem fun ha hb h => by
      rwa [Migration.ver_of_down (hdown _ ha),
        Migration.ver_of_down (hdown _ hb)]
  have hslice := downSlice_eq migs t c hsv
  have hfilter : (migs.filter fun m => t < m.ver ∧ m.ver ≤ c) =
      migs.filter fun m => t < m.ver_from ∧ m.ver_from ≤ c := by
    refine List.filter_congr fun m hm => ?_
    rw [decide_eq_decide, Migration.ver_of_down (hdown _ hm)]
  have hmem : ∀ x ∈ downSelect migs t c, x ∈ migs := by
    intro x hx
    have hx2 := (sortByVerDesc_perm _).mem_iff.mp hx
    rw [hslice] at hx2
    exact (List.mem_filter.mp hx2).1
  constructor
  · refine (sortByVerDesc_perm _).trans ?_
    rw [hslice, hfilter]
  · refine (sortByVerDesc_sorted
      ((migs.drop (pyBisect (migs.map Migration.ver) t)).take
        (pyBisect (migs.map Migration.ver) c -
          pyBisect (migs.map Migration.ver) t))).imp_of_mem ?_
    intro a b ha hb h
    rwa [Migration.ver_of_down (hdown _ (hmem _ ha)),
      Migration.ver_of_down (hdown _ (hmem _ hb))] at h

/-- Witness for C3, the spec's example: current version 3, down versions
[1, 2, 3], target 1: exactly versions 3 and 2 are selected, highest
first. -/
theorem down_selects_exact_range_w :
    ((exDowns.Pairwise fun a b => a.ver_from ≤ b.ver_from) ∧
        (∀ m ∈ exDowns, m.type = Dir.down)) ∧
      ((downSelect exDowns 1 3).Perm
          (exDowns.filter fun m => 1 < m.ver_from ∧ m.ver_from ≤ 3) ∧
        (downSelect exDowns 1 3).Pairwise
          fun a b => b.ver_from ≤ a.ver_from) :=
  ⟨⟨by decide, by decide⟩,
    down_selects_exact_range exDowns 1 3 (by decide) (by decide)⟩

set_option maxRecDepth 10000 in
/-- C4: the hash chain extension is the 40-character lower-case hex
encoding of SHA-1 applied to the concatenation of the previous hash (a
hex string) and the migration content; the chain after applying
`[m1, m2]` from seed `h0` is `SHA1(SHA1(h0 + m1) + m2)` (strictly
sequential, hence deterministic: `chainSeq` is a pure function of the
seed and the content sequence); and chaining is not commutative in the
two contents, witnessed at `h0 = ""`, `m1 = "A"`, `m2 = "B"`
(jaunt.py lines 292-297). -/
theorem hash_chain_sha1_spec :
    (∀ h m : String,
        chainExt h m = hexStr (sha1 (utf8Bytes h ++ utf8Bytes m)) ∧
          (chainExt h m).length = 40) ∧
      (∀ h0 m1 m2 : String,
        chainSeq h0 [m1, m2] = chainExt (chainExt h0 m1) m2) ∧
      chainExt (chainExt "" "A") "B" ≠ chainExt (chainExt "" "B") "A" := by
  refine ⟨fun h m => ⟨?_, ?_⟩, fun h0 m1 m2 => rfl, ?_⟩
  · unfold chainExt
    rw [utf8Bytes_append]
  · unfold chainExt
    rw [hexStr_length, sha1_length]
  · decide

/-- C1: a run of `up` whose selection queues three up-migrations, where
the first succeeds and the second raises a statement error, halts at the
second migration: the resulting ledger is the prior ledger (all earlier
commits preserved) extended by exactly one new row, the one for the
first migration, with no row for the failing or the third migration, and
the failure outcome names the failing migration and its error
(jaunt.py lines 176-183 and 278-297). -/
theorem up_halts_at_failing_migration (db : Db) (migs : List Migration)
    (target : Option Int) (curr : Int) (h0 : String)
    (led : List LedgerEntry) (m1 m2 m3 : Migration) (err : String)
    (hsel : upSelect migs target curr = [m1, m2, m3])
    (h1 : errOf db m1 = none)
    (h2 : errOf db m2 = some err) :
    runUp db migs target curr h0 led =
      .failedAt m2 err
        (led ++ [⟨m1.ver_to, m1.file, chainExt h0 (db.content m1.file)⟩]) := by
  unfold runUp
  rw [hsel]
  show applyLoop db [m1, m2, m3] h0 led = _
  simp only [applyLoop, applyMigration, h1, h2]

/-- Witness for C1: three queued migrations with versions 1, 2, 3 under
`exDb`, whose second batch raises `boom`; the run halts at the second
with exactly the first migration's row appended. -/
theorem up_halts_at_failing_migration_w :
    (upSelect exUps (some 3) 0 =
        [mkMigration Dir.up 1 none "V1__a.sql",
         mkMigration Dir.up 2 none "V2__b.sql",
         mkMigration Dir.up 3 none "V3__c.sql"] ∧
      errOf exDb (mkMigration Dir.up 1 none "V1__a.sql") = none ∧
      errOf exDb (mkMigration Dir.up 2 none "V2__b.sql") = some "boom") ∧
    runUp exDb exUps (some 3) 0 "seed" [] =
      .failedAt (mkMigration Dir.up 2 none "V2__b.sql") "boom"
        ([] ++ [⟨(mkMigration Dir.up 1 none "V1__a.sql").ver_to,
          (mkMigration Dir.up 1 none "V1__a.sql").file,
          chainExt "seed"
            (exDb.content (mkMigration Dir.up 1 none "V1__a.sql").file)⟩]) :=
  ⟨⟨by decide, by decide, by decide⟩,
    up_halts_at_failing_migration exDb exUps (some 3) 0 "seed" []
      (mkMigration Dir.up 1 none "V1__a.sql")
      (mkMigration Dir.up 2 none "V2__b.sql")
      (mkMigration Dir.up 3 none "V3__c.sql")
      "boom" (by decide) (by decide) (by decide)⟩

/-- C5 counterexample: with current version 1 and the explicitly
supplied up target 1 (the spec's own RangeError example: `target == 
current`), the code does not fail at all — no RangeError exists in the
source — it selects nothing and ends in the "No migrations to apply"
warning with the ledger untouched. -/
theorem target_eq_current_no_range_error_cex :
    runUp exDb exUps (some 1) 1 "seed" [] = RunResult.noMigrations [] ∧
      upSelect exUps (some 1) 1 = [] := by
  exact ⟨by decide, by decide⟩

/-- C5 as amended: when the requested target is invalid relative to the
current version (up with an explicitly supplied target `t <= c`, down
with target `t >= c`), the run does not raise any error: the selection
is empty, no migration is applied, the ledger is unchanged, and the only
report is the "No migrations to apply" warning — a silent no-op
(jaunt.py lines 149-151, 165-170 and 95, 108-113). -/
theorem invalid_target_silent_noop :
    (∀ (db : Db) (migs : List Migration) (t c : Int) (h0 : String)
        (led : List LedgerEntry),
      (migs.Pairwise fun a b => a.ver_to ≤ b.ver_to) →
      (∀ m ∈ migs, m.type = Dir.up) → t ≤ c →
      runUp db migs (some t) c h0 led = .noMigrations led) ∧
    (∀ (db : Db) (migs : List Migration) (t c : Int) (h0 : String)
        (led : List LedgerEntry),
      (migs.Pairwise fun a b => a.ver_from ≤ b.ver_from) →
      (∀ m ∈ migs, m.type = Dir.down) → c ≤ t →
      runDown db migs t c h0 led = .noMigrations led) := by
  constructor
  · intro db migs t c h0 led hs hup htc
    have hsv : migs.Pairwise fun a b => a.ver ≤ b.ver :=
      hs.imp_of_mem fun ha hb h => by
        rwa [Migration.ver_of_up (hup _ ha), Migration.ver_of_up (hup _ hb)]
    have hsel : upSelect migs (some t) c = [] := by
      rw [upSelect_some_eq migs t c hsv, List.filter_eq_nil_iff]
      intro m _
      simp only [decide_eq_true_eq, not_and]
      intro hc
      omega
    unfold runUp
    rw [hsel]
  · intro db migs t c h0 led hs hdown hct
    have hsv : migs.Pairwise fun a b => a.ver ≤ b.ver :=
      hs.imp_of_mem fun ha hb h => by
        rwa [Migration.ver_of_down (hdown _ ha),
          Migration.ver_of_down (hdown _ hb)]
    have hslice := downSlice_eq migs t c hsv
    have hnil : (migs.filter fun m => t < m.ver ∧ m.ver ≤ c) = [] := by
      rw [List.filter_eq_nil_iff]
      intro m _
      simp only [decide_eq_true_eq, not_and]
      intro ht
      omega
    have hsel : downSelect migs t c = [] := by
      unfold downSelect
      rw [hslice, hnil]
      rfl
    unfold runDown
    rw [hsel]

/-- Witness for C5 as amended: up with target 1 equal to current version
1 over versions [1, 2, 3, 4], and down with target 3 equal to current
version 3 over versions [1, 2, 3]; both runs end in the no-op warning
with the ledger unchanged. -/
theorem invalid_target_silent_noop_w :
    ((exUps.Pairwise fun a b => a.ver_to ≤ b.ver_to) ∧
        (∀ m ∈ exUps, m.type = Dir.up) ∧ (1 : Int) ≤ 1 ∧
        runUp exDb exUps (some 1) 1 "seed" [] = .noMigrations []) ∧
      ((exDowns.Pairwise fun a b => a.ver_from ≤ b.ver_from) ∧
        (∀ m ∈ exDowns, m.type = Dir.down) ∧ (3 : Int) ≤ 3 ∧
        runDown exDb exDowns 3 3 "seed" [] = .noMigrations []) :=
  ⟨⟨by decide, by decide, by decide,
      invalid_target_silent_noop.1 exDb exUps 1 1 "seed" []
        (by decide) (by decide) (by decide)⟩,
    ⟨by decide, by decide, by decide,
      invalid_target_silent_noop.2 exDb exDowns 3 3 "seed" []
        (by decide) (by decide) (by decide)⟩⟩

/-- C9: any number of invocations of the `list` command leaves the
ledger state unchanged — `list_migrations` performs no write (indeed no
database operation at all, jaunt.py lines 129-135). -/
theorem list_never_writes_ledger (files : List String)
    (led : List LedgerEntry) (n : Nat) :
    Nat.iterate (fun w => (runList w files).1) n led = led := by
  induction n with
  | zero => rfl
  | succ k ih =>
    rw [Function.iterate_succ_apply]
    exact ih
